import Mathlib

/-!
Verification development for the simsopt differentiable computation graph
and the flux objectives in `src/simsopt/objectives/fluxobjective.py`.

Pure numeric code from the source is embedded directly; the generic graph
engine (`Optimizable` / `Derivative`), whose source is not part of this
tree, is modelled from the specification, with each such definition marked
`Modelled from the spec:` in its doc comment.
-/

namespace Simsopt

/-! ## Objective composition: `FOCUSObjective` (fluxobjective.py, lines 45-74)

A `Derivative` (reverse-mode gradient accumulator) is modelled from the
spec as a map from a key type `K` (identifying a node's own DOF block)
to a scalar sensitivity.  `FOCUSObjective.J` and `FOCUSObjective.dJ`
are translated from the source. -/

/-- `FOCUSObjective.J` (source lines 58-64): start from `Jflux.J()`, add
`alpha * sum(J.J() for J in Jcls)` only when `alpha > 0`, and add
`beta * Jdist.J()` only when `beta > 0` and `Jdist` is present. -/
def focus_J {F : Type} [LinearOrderedField F]
    (alpha beta : F) (Jflux : F) (Jcls : List F) (Jdist : Option F) : F :=
  let res := Jflux
  let res := if alpha > 0 then res + alpha * Jcls.sum else res
  match Jdist with
  | some jd => if beta > 0 then res + beta * jd else res
  | none => res

/-- `FOCUSObjective.dJ` (source lines 66-74): start from the flux
derivative map, fold in `alpha * Jcl.dJ(partials=True)` for each `Jcl`
when `alpha > 0`, then add `beta * Jdist.dJ(partials=True)` when
`beta > 0` and `Jdist` is present.  Addition of derivative maps is
pointwise (shared keys are summed, not overwritten). -/
def focus_dJ {F : Type} [LinearOrderedField F] {K : Type}
    (alpha beta : F) (dflux : K → F) (dcls : List (K → F))
    (ddist : Option (K → F)) : K → F :=
  let res := dflux
  let res := if alpha > 0 then
      dcls.foldl (fun acc d => fun k => acc k + alpha * d k) res
    else res
  match ddist with
  | some dd => if beta > 0 then (fun k => res k + beta * dd k) else res
  | none => res

/-- Modelled from the spec: a value-producing node exposes a scalar value
and a vector-Jacobian product `vjp : seed → sensitivity map` over its
flattened free parameters (spec section 4.5 / section 6). -/
structure VNode (K : Type) where
  value : ℚ
  vjp : ℚ → K → ℚ

/-- Modelled from the spec: the scalar-multiple composite node
(`J1 * scalar` via operator overloading, not in src): its value is the
scaled value and its `vjp` simply scales the seed before delegating to
the operand (spec section 4.5). -/
def scaleNode {K : Type} (w : ℚ) (J2 : VNode K) : VNode K :=
  { value := w * J2.value
    vjp := fun seed => J2.vjp (w * seed) }

/-- Modelled from the spec: the sum composite node (`J1 + J2` via operator
overloading, not in src): its value is the sum of values and its `vjp`
delegates the seed to both operands and sums the resulting maps
(spec section 4.5). -/
def sumNode {K : Type} (J1 J2 : VNode K) : VNode K :=
  { value := J1.value + J2.value
    vjp := fun seed k => J1.vjp seed k + J2.vjp seed k }

/-! ## Dependency-graph model (spec sections 3, 4.1-4.3)

The `Optimizable` graph engine itself is not part of this source tree, so
its state and operations are modelled from the specification. -/

/-- Modelled from the spec: one named scalar degree of freedom with its
current value and fixed/free flag (spec section 3, "DOF"). -/
structure Dof where
  name : String
  value : ℚ
  fixed : Bool
deriving DecidableEq

/-- Modelled from the spec: the state of a dependency graph of optimizable
nodes (spec section 3, "Node" and "Cache entry").  Nodes are identified by
natural numbers; each node has its own ordered DOF list, an ordered list
of child node ids, a generation counter, an optional generation-stamped
cached value, and an instrumentation counter of value-function
invocations. -/
structure OptGraph where
  dofs : Nat → List Dof
  children : Nat → List Nat
  gens : Nat → Nat
  caches : Nat → Option (ℚ × Nat)
  counts : Nat → Nat

/-- The child edge relation of a graph: `childEdge g a b` holds when `b`
is a direct child of `a`. -/
def childEdge (g : OptGraph) (a b : Nat) : Prop := b ∈ g.children a

/-- Fuel-bounded reachability along child edges: `reachF children fuel s d`
decides whether `d` is in the transitive closure of `s` following paths of
length at most `fuel`. -/
def reachF (children : Nat → List Nat) : Nat → Nat → Nat → Bool
  | 0, s, d => s == d
  | fuel + 1, s, d => s == d || (children s).any (fun c => reachF children fuel c d)

/-- Fuel-bounded depth-first listing of the node ids reachable from `a`,
self first, then children in order (spec section 3: flattening order is
depth-first over children). -/
def dfsIds (children : Nat → List Nat) : Nat → Nat → List Nat
  | 0, a => [a]
  | fuel + 1, a => a :: (children a).flatMap (fun c => dfsIds children fuel c)

/-- First-occurrence deduplication with an explicit seen-list: keeps the
first occurrence of each id, so a child reachable via several paths is
listed exactly once (spec section 3: "each child exactly once even if
reachable via multiple paths"). -/
def dedupFO : List Nat → List Nat → List Nat
  | [], _ => []
  | a :: rest, seen =>
    if a ∈ seen then dedupFO rest seen else a :: dedupFO rest (a :: seen)

/-- The deduplicated closure id list of node `a`: the order used for
flattening `x` and `dof_names`. -/
def closureIds (g : OptGraph) (fuel a : Nat) : List Nat :=
  dedupFO (dfsIds g.children fuel a) []

/-- The free (unfixed) values of one DOF registry, in declaration order
(spec section 4.1, `free_values`). -/
def freeVals (l : List Dof) : List ℚ :=
  (l.filter (fun d => !d.fixed)).map (fun d => d.value)

/-- The free (unfixed) names of one DOF registry, in declaration order
(spec section 4.1, `free_names`). -/
def freeNames (l : List Dof) : List String :=
  (l.filter (fun d => !d.fixed)).map (fun d => d.name)

/-- Modelled from the spec: the flattened free-parameter vector `x` of
node `a` — concatenation of the free DOF values over the deduplicated
depth-first closure (spec section 4.2). -/
def xvec (g : OptGraph) (fuel a : Nat) : List ℚ :=
  ((closureIds g fuel a).map (fun i => freeVals (g.dofs i))).flatten

/-- Modelled from the spec: the flattened free DOF names of node `a`,
mirroring the ordering of `xvec` (spec section 4.2, `dof_names`). -/
def xnames (g : OptGraph) (fuel a : Nat) : List String :=
  ((closureIds g fuel a).map (fun i => freeNames (g.dofs i))).flatten

/-- Set the fixed flag of the `j`-th DOF of a registry to `true`
(spec section 4.1, `fix(name)`, addressed positionally). -/
def fixAt : List Dof → Nat → List Dof
  | [], _ => []
  | d :: rest, 0 => { d with fixed := true } :: rest
  | d :: rest, j + 1 => d :: fixAt rest j

/-- Fix one DOF (node `i`, position `j`) in the graph; the graph structure
and all values are untouched. -/
def fixDof (g : OptGraph) (i j : Nat) : OptGraph :=
  { g with dofs := fun a => if a = i then fixAt (g.dofs a) j else g.dofs a }

/-- Modelled from the spec: set the fixed flag of every DOF of every node
in `ids` to `b` (`fix_all` / `unfix_all` over a node's transitive closure,
spec section 4.1). -/
def setFixedAll (b : Bool) (ids : List Nat) (g : OptGraph) : OptGraph :=
  { g with dofs := fun a =>
      if a ∈ ids then (g.dofs a).map (fun d => { d with fixed := b })
      else g.dofs a }

/-- Modelled from the spec: `fix_all()` on node `a` fixes every DOF in its
transitive closure. -/
def fixAllG (g : OptGraph) (fuel a : Nat) : OptGraph :=
  setFixedAll true (closureIds g fuel a) g

/-- Modelled from the spec: `unfix_all()` on node `a` unfixes every DOF in
its transitive closure. -/
def unfixAllG (g : OptGraph) (fuel a : Nat) : OptGraph :=
  setFixedAll false (closureIds g fuel a) g

/-- A cache entry is valid if and only if the node's current generation
equals the stamped generation (spec section 3, "Cache entry"). -/
def cacheValid (g : OptGraph) (a : Nat) : Prop :=
  match g.caches a with
  | some (_, st) => st = g.gens a
  | none => False

/-- Modelled from the spec: mutating a DOF owned by node `v` increments the
generation of `v` and of every node whose transitive closure contains `v`
(every transitive ancestor), each exactly once; caches and invocation
counters are untouched — recomputation is deferred (spec sections 3
and 4.3). -/
def mutateDof (fuel v : Nat) (g : OptGraph) : OptGraph :=
  { g with gens := fun a =>
      if reachF g.children fuel a v then g.gens a + 1 else g.gens a }

/-- Modelled from the spec: a value query on node `a`
(`recompute_if_needed`, spec section 4.3): if the stamped generation
equals the current generation, return the cached value unchanged;
otherwise invoke the user value function `f`, store the result stamped
with the current generation, and bump the invocation counter. -/
def valueQuery (f : Nat → ℚ) (g : OptGraph) (a : Nat) : ℚ × OptGraph :=
  let recompute : ℚ × OptGraph :=
    (f a,
     { g with
        caches := fun b => if b = a then some (f a, g.gens a) else g.caches b
        counts := fun b => if b = a then g.counts b + 1 else g.counts b })
  match g.caches a with
  | some (v, st) => if st = g.gens a then (v, g) else recompute
  | none => recompute

/-- Graph construction errors (spec section 7). -/
inductive GraphErr where
  | cycleError
deriving DecidableEq

/-- Modelled from the spec: `add_child(node)` (spec section 4.2): before
adding the edge, check reachability from the candidate child back to the
would-be parent; on success append the child to the parent's child list,
on failure report `CycleError` and leave the graph unchanged. -/
def addChild (fuel : Nat) (g : OptGraph) (parent child : Nat) :
    OptGraph × Option GraphErr :=
  if reachF g.children fuel child parent then (g, some GraphErr.cycleError)
  else
    ({ g with children := fun a =>
        if a = parent then g.children a ++ [child] else g.children a },
     none)

/-! ## `SquaredFlux` (fluxobjective.py, lines 6-42)

`SquaredFlux.__init__` passes `x0 = []` and `depends_on = [field]` to the
`Optimizable` constructor: the node owns no DOFs and its only child is the
field; the surface is kept as a plain attribute and never registered. -/

/-- `SquaredFlux.__init__` (source line 14): the node's own DOF list is
empty (`x0=np.asarray([])`). -/
def squaredFluxOwnDofs : List Dof := []

/-- `SquaredFlux.__init__` (source line 14): the dependency list is
exactly `[field]` (`depends_on=[field]`); the surface is not included. -/
def squaredFluxChildren (fieldId : Nat) : List Nat := [fieldId]

/-- `SquaredFlux.J` / `SquaredFlux.dJ` (source lines 19, 32):
`absn = np.linalg.norm(n, axis=2)`, the pointwise Euclidean norm of the
surface normal at quadrature point `i`. -/
noncomputable def surfAbsn {m : Nat} (nrm : Fin m → Fin 3 → ℝ) (i : Fin m) : ℝ :=
  Real.sqrt (∑ c, nrm i c ^ 2)

/-- `SquaredFlux.J` / `SquaredFlux.dJ` (source lines 20, 33):
`unitn = n * (1./absn)`, the unit normal at quadrature point `i`. -/
noncomputable def surfUnitn {m : Nat} (nrm : Fin m → Fin 3 → ℝ) (i : Fin m) (c : Fin 3) : ℝ :=
  nrm i c * (1 / surfAbsn nrm i)

/-- `SquaredFlux.J` / `SquaredFlux.dJ` (source lines 22-26, 35-39):
`B_n = sum(Bcoil*unitn, axis=2) - target` when a target is given, and
`sum(Bcoil*unitn, axis=2)` otherwise. -/
noncomputable def surfBn {m : Nat} (B nrm : Fin m → Fin 3 → ℝ) (target : Option (Fin m → ℝ))
    (i : Fin m) : ℝ :=
  match target with
  | some t => (∑ c, B i c * surfUnitn nrm i c) - t i
  | none => ∑ c, B i c * surfUnitn nrm i c

/-- `SquaredFlux.J` (source line 27): `0.5 * np.mean(B_n**2 * absn)`,
with the mean taken over the `m = absn.size` quadrature points. -/
noncomputable def squaredFlux_J {m : Nat} (B nrm : Fin m → Fin 3 → ℝ)
    (target : Option (Fin m → ℝ)) : ℝ :=
  0.5 * ((∑ i, surfBn B nrm target i ^ 2 * surfAbsn nrm i) / m)

/-- `SquaredFlux.dJ` (source line 40): the seed passed to `field.B_vjp`,
`dJdB = (B_n * unitn * absn) / absn.size`, componentwise. -/
noncomputable def squaredFlux_dJdB {m : Nat} (B nrm : Fin m → Fin 3 → ℝ)
    (target : Option (Fin m → ℝ)) (i : Fin m) (c : Fin 3) : ℝ :=
  surfBn B nrm target i * surfUnitn nrm i c * surfAbsn nrm i / m

/-- Perturb a single component of the field values: replace `B i0 c0`
by `s`, leaving every other entry unchanged. -/
def updB {m : Nat} (B : Fin m → Fin 3 → ℝ) (i0 : Fin m) (c0 : Fin 3) (s : ℝ) :
    Fin m → Fin 3 → ℝ :=
  fun i c => if i = i0 ∧ c = c0 then s else B i c

/-! ## Concrete graphs used as evaluation inputs -/

/-- A diamond-shaped test graph: node 0 has children 1 and 2; nodes 0 and 2
carry valid cache entries. -/
def wgraphDiamond : OptGraph :=
  { dofs := fun _ => []
    children := fun a => if a = 0 then [1, 2] else []
    gens := fun _ => 0
    caches := fun a =>
      if a = 0 then some (5, 0) else if a = 2 then some (7, 0) else none
    counts := fun _ => 0 }

/-- A two-node chain: node 0 has child 1. -/
def wgraphChain : OptGraph :=
  { dofs := fun _ => []
    children := fun a => if a = 0 then [1] else []
    gens := fun _ => 0
    caches := fun _ => none
    counts := fun _ => 0 }

/-- A single node owning two free DOFs. -/
def wgraphDofs : OptGraph :=
  { dofs := fun a =>
      if a = 0 then [⟨"c0x", 3, false⟩, ⟨"c0y", 4, false⟩] else []
    children := fun _ => []
    gens := fun _ => 0
    caches := fun _ => none
    counts := fun _ => 0 }

/-- A `SquaredFlux`-shaped graph: node 2 is the flux node (no own DOFs,
single child 1 standing for the field); node 0 stands for the surface and
is not referenced. -/
def wgraphFlux : OptGraph :=
  { dofs := fun _ => []
    children := fun a => if a = 2 then [1] else []
    gens := fun _ => 0
    caches := fun a => if a = 2 then some (1, 0) else none
    counts := fun _ => 0 }

/-! ## Helper lemmas -/

theorem focus_foldl_eval {F : Type} [LinearOrderedField F] {K : Type}
    (alpha : F) (dcls : List (K → F)) (res : K → F) (k : K) :
    (dcls.foldl (fun acc d => fun k => acc k + alpha * d k) res) k
      = res k + alpha * (dcls.map (fun d => d k)).sum := by
  induction dcls generalizing res with
  | nil => simp
  | cons d rest ih =>
    simp only [List.foldl_cons, List.map_cons, List.sum_cons]
    rw [ih]
    ring

theorem focus_dJ_eval {F : Type} [LinearOrderedField F] {K : Type}
    (alpha beta : F) (dflux : K → F) (dcls : List (K → F))
    (ddist : Option (K → F)) (k : K) :
    focus_dJ alpha beta dflux dcls ddist k
      = dflux k + (if alpha > 0 then alpha * (dcls.map (fun d => d k)).sum else 0)
        + (match ddist with
           | some dd => if beta > 0 then beta * dd k else 0
           | none => 0) := by
  unfold focus_dJ
  cases ddist with
  | none =>
    by_cases ha : alpha > 0 <;> simp [ha, focus_foldl_eval]
  | some dd =>
    by_cases ha : alpha > 0 <;> by_cases hb : beta > 0 <;>
      simp [ha, hb, focus_foldl_eval]

theorem reachF_succ (c : Nat → List Nat) :
    ∀ fuel s d, reachF c fuel s d = true → reachF c (fuel + 1) s d = true := by
  intro fuel
  induction fuel with
  | zero =>
    intro s d h
    simp only [reachF, beq_iff_eq] at h
    simp [reachF, h]
  | succ n ih =>
    intro s d h
    have h' : (s == d || (c s).any fun x => reachF c n x d) = true := h
    show (s == d || (c s).any fun x => reachF c (n + 1) x d) = true
    simp only [Bool.or_eq_true, beq_iff_eq, List.any_eq_true] at h' ⊢
    rcases h' with h1 | ⟨x, hx, hr⟩
    · exact Or.inl h1
    · exact Or.inr ⟨x, hx, ih x d hr⟩

theorem reachF_mono (c : Nat → List Nat) {fuel fuel' : Nat} (hle : fuel ≤ fuel')
    {s d : Nat} (h : reachF c fuel s d = true) : reachF c fuel' s d = true := by
  induction fuel' with
  | zero =>
    have : fuel = 0 := Nat.le_zero.mp hle
    simpa [this] using h
  | succ n ih =>
    rcases Nat.lt_or_ge fuel (n + 1) with hlt | hge
    · exact reachF_succ c n s d (ih (Nat.lt_succ_iff.mp hlt))
    · have : fuel = n + 1 := Nat.le_antisymm hle hge
      simpa [this] using h

theorem reachF_sound (c : Nat → List Nat) :
    ∀ fuel s d, reachF c fuel s d = true →
      Relation.ReflTransGen (fun a b => b ∈ c a) s d := by
  intro fuel
  induction fuel with
  | zero =>
    intro s d h
    simp only [reachF, beq_iff_eq] at h
    exact h ▸ Relation.ReflTransGen.refl
  | succ n ih =>
    intro s d h
    simp only [reachF, Bool.or_eq_true, beq_iff_eq, List.any_eq_true] at h
    rcases h with h | ⟨x, hx, hr⟩
    · exact h ▸ Relation.ReflTransGen.refl
    · exact Relation.ReflTransGen.head hx (ih x d hr)

theorem reachF_complete (c : Nat → List Nat) {s d : Nat}
    (h : Relation.ReflTransGen (fun a b => b ∈ c a) s d) :
    ∃ fuel, reachF c fuel s d = true := by
  induction h using Relation.ReflTransGen.head_induction_on with
  | refl => exact ⟨0, by simp [reachF]⟩
  | head hab _ ih =>
    obtain ⟨f, hf⟩ := ih
    refine ⟨f + 1, ?_⟩
    simp only [reachF, Bool.or_eq_true, beq_iff_eq, List.any_eq_true]
    exact Or.inr ⟨_, hab, hf⟩

theorem dfsIds_sound (c : Nat → List Nat) :
    ∀ fuel a x, x ∈ dfsIds c fuel a →
      Relation.ReflTransGen (fun p q => q ∈ c p) a x := by
  intro fuel
  induction fuel with
  | zero =>
    intro a x h
    simp only [dfsIds, List.mem_singleton] at h
    exact h ▸ Relation.ReflTransGen.refl
  | succ n ih =>
    intro a x h
    simp only [dfsIds, List.mem_cons, List.mem_flatMap] at h
    rcases h with h | ⟨ch, hch, hx⟩
    · exact h ▸ Relation.ReflTransGen.refl
    · exact Relation.ReflTransGen.head hch (ih ch x hx)

theorem mem_dedupFO : ∀ (l seen : List Nat) (x : Nat),
    x ∈ dedupFO l seen ↔ x ∈ l ∧ x ∉ seen := by
  intro l
  induction l with
  | nil => intro seen x; simp [dedupFO]
  | cons a rest ih =>
    intro seen x
    by_cases ha : a ∈ seen
    · simp only [dedupFO, if_pos ha, ih, List.mem_cons]
      constructor
      · rintro ⟨hx, hns⟩; exact ⟨Or.inr hx, hns⟩
      · rintro ⟨hx | hx, hns⟩
        · exact absurd (hx ▸ ha) hns
        · exact ⟨hx, hns⟩
    · simp only [dedupFO, if_neg ha, List.mem_cons, ih]
      constructor
      · rintro (rfl | ⟨hx, hns⟩)
        · exact ⟨Or.inl rfl, ha⟩
        · exact ⟨Or.inr hx, fun hs => hns (Or.inr hs)⟩
      · rintro ⟨rfl | hx, hns⟩
        · exact Or.inl rfl
        · by_cases hxa : x = a
          · exact Or.inl hxa
          · exact Or.inr ⟨hx, by simp [hxa, hns]⟩

theorem nodup_dedupFO : ∀ (l seen : List Nat), (dedupFO l seen).Nodup := by
  intro l
  induction l with
  | nil => intro seen; simp [dedupFO]
  | cons a rest ih =>
    intro seen
    by_cases ha : a ∈ seen
    · simpa [dedupFO, if_pos ha] using ih seen
    · simp only [dedupFO, if_neg ha, List.nodup_cons]
      refine ⟨fun hmem => ?_, ih (a :: seen)⟩
      have := (mem_dedupFO rest (a :: seen) a).mp hmem
      exact this.2 (List.mem_cons_self a seen)

theorem closureIds_sound (g : OptGraph) (fuel a x : Nat)
    (h : x ∈ closureIds g fuel a) :
    Relation.ReflTransGen (childEdge g) a x := by
  have hx := ((mem_dedupFO _ _ _).mp h).1
  exact dfsIds_sound g.children fuel a x hx

theorem freeVals_length_eq_freeNames (l : List Dof) :
    (freeVals l).length = (freeNames l).length := by
  simp [freeVals, freeNames]

theorem freeVals_cons (d : Dof) (l : List Dof) :
    freeVals (d :: l) = if d.fixed then freeVals l else d.value :: freeVals l := by
  by_cases h : d.fixed <;> simp [freeVals, List.filter_cons, h]

theorem fixAt_free_length : ∀ (l : List Dof) (j : Nat) (d : Dof),
    l[j]? = some d → d.fixed = false →
    (freeVals (fixAt l j)).length + 1 = (freeVals l).length := by
  intro l
  induction l with
  | nil => intro j d h; simp at h
  | cons hd rest ih =>
    intro j d hget hfree
    cases j with
    | zero =>
      have hd_eq : hd = d := by simpa using hget
      subst hd_eq
      show (freeVals ({ hd with fixed := true } :: rest)).length + 1
        = (freeVals (hd :: rest)).length
      rw [freeVals_cons, freeVals_cons]
      simp [hfree]
    | succ j =>
      simp only [List.getElem?_cons_succ] at hget
      have hih := ih j d hget hfree
      show (freeVals (hd :: fixAt rest j)).length + 1
        = (freeVals (hd :: rest)).length
      rw [freeVals_cons, freeVals_cons]
      by_cases hf : hd.fixed
      · simpa [hf] using hih
      · simp [hf]
        omega

theorem sum_map_pert (f f' : Nat → Nat) (i : Nat) :
    ∀ l : List Nat, l.Nodup → i ∈ l → f' i + 1 = f i →
      (∀ b ∈ l, b ≠ i → f' b = f b) →
      (l.map f').sum + 1 = (l.map f).sum := by
  intro l
  induction l with
  | nil => intro _ hi _ _; simp at hi
  | cons a rest ih =>
    intro hl hi hfi hother
    rcases List.mem_cons.mp hi with heq | hi'
    · subst heq
      have hnot : i ∉ rest := (List.nodup_cons.mp hl).1
      have hrest : rest.map f' = rest.map f := by
        apply List.map_congr_left
        intro b hb
        exact hother b (List.mem_cons_of_mem _ hb) (fun hba => hnot (hba ▸ hb))
      simp only [List.map_cons, List.sum_cons, hrest]
      omega
    · have hne : a ≠ i := by
        rintro rfl
        exact (List.nodup_cons.mp hl).1 hi'
      have ha : f' a = f a := hother a (List.mem_cons_self a rest) hne
      have hrec := ih (List.nodup_cons.mp hl).2 hi' hfi
        (fun b hb hbne => hother b (List.mem_cons_of_mem _ hb) hbne)
      simp only [List.map_cons, List.sum_cons, ha]
      omega

theorem freeVals_all_free (l : List Dof) (h : ∀ d ∈ l, d.fixed = false) :
    freeVals l = l.map (fun d => d.value) := by
  unfold freeVals
  rw [List.filter_eq_self.mpr]
  intro a ha
  simp [h a ha]

theorem freeVals_map_unfix (l : List Dof) :
    freeVals (l.map (fun d => { d with fixed := false }))
      = l.map (fun d => d.value) := by
  induction l with
  | nil => simp [freeVals]
  | cons d rest ih =>
    simp only [List.map_cons]
    rw [freeVals_cons]
    simp [ih]

theorem focus_J_eval {F : Type} [LinearOrderedField F]
    (alpha beta : F) (jf : F) (jcls : List F) (jd : Option F) :
    focus_J alpha beta jf jcls jd
      = jf + (if alpha > 0 then alpha * jcls.sum else 0)
        + (match jd with
           | some j => if beta > 0 then beta * j else 0
           | none => 0) := by
  unfold focus_J
  cases jd with
  | none => by_cases ha : alpha > 0 <;> simp [ha]
  | some j =>
    by_cases ha : alpha > 0 <;> by_cases hb : beta > 0 <;> simp [ha, hb]

theorem hasDerivAt_list_sum (t : ℝ) (l : List (ℝ → ℝ)) (l' : List ℝ)
    (h : List.Forall₂ (fun c c' => HasDerivAt c c' t) l l') :
    HasDerivAt (fun s => (l.map (fun c => c s)).sum) l'.sum t := by
  induction h with
  | nil => simpa using hasDerivAt_const t (0 : ℝ)
  | cons hf _ ih =>
    simp only [List.map_cons, List.sum_cons]
    exact hf.add ih

theorem surfBn_updB_ne {m : Nat} (B nrm : Fin m → Fin 3 → ℝ)
    (tg : Option (Fin m → ℝ)) (i0 : Fin m) (c0 : Fin 3) (s : ℝ)
    (i : Fin m) (hne : i ≠ i0) :
    surfBn (updB B i0 c0 s) nrm tg i = surfBn B nrm tg i := by
  unfold surfBn updB
  cases tg <;> simp [hne]

theorem surfBn_updB_eq {m : Nat} (B nrm : Fin m → Fin 3 → ℝ)
    (tg : Option (Fin m → ℝ)) (i0 : Fin m) (c0 : Fin 3) (s : ℝ) :
    surfBn (updB B i0 c0 s) nrm tg i0
      = surfBn B nrm tg i0 + (s - B i0 c0) * surfUnitn nrm i0 c0 := by
  have hsum : (∑ c, updB B i0 c0 s i0 c * surfUnitn nrm i0 c)
      = (∑ c, B i0 c * surfUnitn nrm i0 c)
        + (s - B i0 c0) * surfUnitn nrm i0 c0 := by
    have hterm : ∀ c : Fin 3, updB B i0 c0 s i0 c * surfUnitn nrm i0 c
        = B i0 c * surfUnitn nrm i0 c
          + (if c = c0 then (s - B i0 c0) * surfUnitn nrm i0 c0 else 0) := by
      intro c
      by_cases hc : c = c0
      · subst hc; simp [updB]; ring
      · simp [updB, hc]
    rw [Finset.sum_congr rfl (fun c _ => hterm c), Finset.sum_add_distrib]
    simp
  unfold surfBn
  cases tg with
  | none => exact hsum
  | some t => rw [hsum]; ring

theorem updB_self {m : Nat} (B : Fin m → Fin 3 → ℝ) (i0 : Fin m)
    (c0 : Fin 3) : updB B i0 c0 (B i0 c0) = B := by
  funext i c
  unfold updB
  by_cases h : i = i0 ∧ c = c0
  · obtain ⟨h1, h2⟩ := h
    subst h1; subst h2
    simp
  · simp [h]

/-! ## Claim theorems -/

/-- C1: in a diamond where a child's DOF block (key `c`) receives
sensitivity contributions from several parents — the flux objective, every
entry of `Jcls`, and `Jdist` — `FOCUSObjective.dJ` accumulates into the
child's accumulator the **sum** of the per-parent contributions (summed,
not overwritten), so the final gradient entry at `c` is the sum of each
parent's individual contribution. -/
theorem focus_dJ_diamond_sum {K : Type} (alpha beta : ℚ)
    (dflux : K → ℚ) (dcls : List (K → ℚ)) (dd : K → ℚ) (c : K)
    (ha : 0 < alpha) (hb : 0 < beta) :
    focus_dJ alpha beta dflux dcls (some dd) c
      = dflux c + alpha * (dcls.map (fun d => d c)).sum + beta * dd c := by
  rw [focus_dJ_eval]
  simp [ha, hb]

theorem focus_dJ_diamond_sum_witness :
    (0:ℚ) < 1 ∧ (0:ℚ) < 2 ∧
    focus_dJ (1:ℚ) 2 (fun _ : Nat => (3:ℚ)) [fun _ => 5] (some fun _ => 7) 0
      = (fun _ : Nat => (3:ℚ)) 0
        + 1 * (([fun _ => (5:ℚ)].map (fun d => d 0)).sum)
        + 2 * (fun _ : Nat => (7:ℚ)) 0 :=
  ⟨by norm_num, by norm_num,
   focus_dJ_diamond_sum 1 2 (fun _ : Nat => (3:ℚ)) [fun _ => 5] (fun _ => 7) 0
     (by norm_num) (by norm_num)⟩

/-- C2: for value-producing nodes `J1`, `J2` with `vjp` and any scalar
weight `w`, the composite `J = J1 + w * J2` built from the sum and scalar
composite nodes is a value-producing node whose value is
`J1.value + w * J2.value`, and — provided `J2`'s `vjp` is linear in its
seed, as a genuine vector-Jacobian product is — whose gradient (`vjp` at
seed 1) is `J1`'s gradient plus `w` times `J2`'s gradient, with no custom
derivative code. -/
theorem sum_scale_composite_correct {K : Type} (J1 J2 : VNode K) (w : ℚ)
    (hlin : ∀ s k, J2.vjp s k = s * J2.vjp 1 k) :
    (sumNode J1 (scaleNode w J2)).value = J1.value + w * J2.value ∧
    ∀ k, (sumNode J1 (scaleNode w J2)).vjp 1 k
      = J1.vjp 1 k + w * J2.vjp 1 k := by
  refine ⟨rfl, fun k => ?_⟩
  show J1.vjp 1 k + J2.vjp (w * 1) k = J1.vjp 1 k + w * J2.vjp 1 k
  rw [hlin (w * 1) k]
  ring

theorem sum_scale_composite_correct_witness :
    (sumNode (⟨2, fun s _ => s * 4⟩ : VNode Nat)
        (scaleNode (-2) ⟨3, fun s _ => s * 5⟩)).value = 2 + (-2) * 3 ∧
    ∀ k, (sumNode (⟨2, fun s _ => s * 4⟩ : VNode Nat)
        (scaleNode (-2) ⟨3, fun s _ => s * 5⟩)).vjp 1 k
      = (⟨2, fun s _ => s * 4⟩ : VNode Nat).vjp 1 k
        + (-2) * (⟨3, fun s _ => s * 5⟩ : VNode Nat).vjp 1 k :=
  sum_scale_composite_correct ⟨2, fun s _ => s * 4⟩ ⟨3, fun s _ => s * 5⟩ (-2)
    (fun s k => by show s * 5 = s * (1 * 5); ring)

/-- C3: a value query is idempotent with respect to caching: two
consecutive `value()` calls with no intervening mutation return identical
results, the second call is a cache hit (it does not invoke the user value
function), and across the two calls the user value function runs at most
once. -/
theorem value_query_idempotent (f : Nat → ℚ) (g : OptGraph) (a : Nat) :
    (valueQuery f (valueQuery f g a).2 a).1 = (valueQuery f g a).1 ∧
    (valueQuery f (valueQuery f g a).2 a).2.counts a
      = (valueQuery f g a).2.counts a ∧
    (valueQuery f g a).2.counts a ≤ g.counts a + 1 := by
  rcases hc : g.caches a with _ | ⟨v, st⟩
  · simp [valueQuery, hc]
  · by_cases hst : st = g.gens a
    · simp [valueQuery, hc, hst]
    · simp [valueQuery, hc, hst]

/-- C4: mutating a DOF owned by node `v` invalidates the cached value of
`v` and of every transitive ancestor `a` of `v`, leaves the valid cache of
any node `s` whose closure does not contain `v` (a sibling subtree) valid,
performs no recomputation itself (caches' stored values and all invocation
counters are untouched), and a later value query on the sibling is a cache
hit, so its value function is not re-invoked. -/
theorem mutation_invalidates_ancestors (f : Nat → ℚ) (g : OptGraph)
    (v a s : Nat)
    (ha : Relation.ReflTransGen (childEdge g) a v)
    (hs : ¬ Relation.ReflTransGen (childEdge g) s v)
    (hca : cacheValid g a) (hcs : cacheValid g s) :
    ∃ f0, ∀ fuel, f0 ≤ fuel →
      ¬ cacheValid (mutateDof fuel v g) a ∧
      cacheValid (mutateDof fuel v g) s ∧
      (mutateDof fuel v g).counts = g.counts ∧
      (mutateDof fuel v g).caches = g.caches ∧
      (valueQuery f (mutateDof fuel v g) s).2.counts s = g.counts s := by
  obtain ⟨f0, hf0⟩ := reachF_complete g.children ha
  refine ⟨f0, fun fuel hle => ?_⟩
  have hra : reachF g.children fuel a v = true := reachF_mono g.children hle hf0
  have hrs : reachF g.children fuel s v = false := by
    rcases hb : reachF g.children fuel s v with _ | _
    · rfl
    · exact absurd (reachF_sound g.children fuel s v hb) hs
  have hgens_a : (mutateDof fuel v g).gens a = g.gens a + 1 := by
    simp [mutateDof, hra]
  have hgens_s : (mutateDof fuel v g).gens s = g.gens s := by
    simp [mutateDof, hrs]
  refine ⟨?_, ?_, rfl, rfl, ?_⟩
  · intro hvalid
    unfold cacheValid at hca hvalid
    rcases hc : g.caches a with _ | ⟨v0, st⟩
    · rw [hc] at hca; exact hca
    · have hcaches : (mutateDof fuel v g).caches a = g.caches a := rfl
      rw [hc] at hca
      rw [hcaches, hc, hgens_a] at hvalid
      omega
  · unfold cacheValid at hcs ⊢
    rcases hc : g.caches s with _ | ⟨v0, st⟩
    · rw [hc] at hcs; exact hcs.elim
    · have hcaches : (mutateDof fuel v g).caches s = g.caches s := rfl
      rw [hc] at hcs
      rw [hcaches, hc, hgens_s]
      exact hcs
  · unfold cacheValid at hcs
    rcases hc : g.caches s with _ | ⟨v0, st⟩
    · rw [hc] at hcs; exact hcs.elim
    · rw [hc] at hcs
      have hst : st = g.gens s := hcs
      have hcaches : (mutateDof fuel v g).caches s = some (v0, st) := hc
      simp [valueQuery, mutateDof, hc, hrs, hst]

theorem mutation_invalidates_ancestors_witness :
    Relation.ReflTransGen (childEdge wgraphDiamond) 0 1 ∧
    ¬ Relation.ReflTransGen (childEdge wgraphDiamond) 2 1 ∧
    cacheValid wgraphDiamond 0 ∧ cacheValid wgraphDiamond 2 ∧
    (∃ f0, ∀ fuel, f0 ≤ fuel →
      ¬ cacheValid (mutateDof fuel 1 wgraphDiamond) 0 ∧
      cacheValid (mutateDof fuel 1 wgraphDiamond) 2 ∧
      (mutateDof fuel 1 wgraphDiamond).counts = wgraphDiamond.counts ∧
      (mutateDof fuel 1 wgraphDiamond).caches = wgraphDiamond.caches ∧
      (valueQuery (fun _ => 0) (mutateDof fuel 1 wgraphDiamond) 2).2.counts 2
        = wgraphDiamond.counts 2) := by
  have h1 : Relation.ReflTransGen (childEdge wgraphDiamond) 0 1 :=
    Relation.ReflTransGen.single (by simp [childEdge, wgraphDiamond])
  have h2 : ¬ Relation.ReflTransGen (childEdge wgraphDiamond) 2 1 := by
    intro h
    rcases Relation.ReflTransGen.cases_head h with h | ⟨c, hc, _⟩
    · exact absurd h (by decide)
    · simp [childEdge, wgraphDiamond] at hc
  have h3 : cacheValid wgraphDiamond 0 := by simp [cacheValid, wgraphDiamond]
  have h4 : cacheValid wgraphDiamond 2 := by simp [cacheValid, wgraphDiamond]
  exact ⟨h1, h2, h3, h4,
    mutation_invalidates_ancestors (fun _ => 0) wgraphDiamond 1 0 2 h1 h2 h3 h4⟩

/-- C5: `add_child` raises `CycleError` whenever the candidate edge would
close a cycle — i.e. whenever the would-be parent is reachable from the
candidate child — detected by the reachability check before the edge is
added; after the failed call the graph is unchanged, in particular the
flattened parameter vector (hence `len(x)`) of every node is the same as
before the attempt. -/
theorem add_child_rejects_cycle (g : OptGraph) (parent child : Nat)
    (h : Relation.ReflTransGen (childEdge g) child parent) :
    ∃ f0, ∀ fuel, f0 ≤ fuel →
      addChild fuel g parent child = (g, some GraphErr.cycleError) ∧
      ∀ xfuel root,
        xvec (addChild fuel g parent child).1 xfuel root = xvec g xfuel root := by
  obtain ⟨f0, hf0⟩ := reachF_complete g.children h
  refine ⟨f0, fun fuel hle => ?_⟩
  have hr : reachF g.children fuel child parent = true :=
    reachF_mono g.children hle hf0
  have heq : addChild fuel g parent child = (g, some GraphErr.cycleError) := by
    simp [addChild, hr]
  exact ⟨heq, fun xfuel root => by rw [heq]⟩

theorem add_child_rejects_cycle_witness :
    Relation.ReflTransGen (childEdge wgraphChain) 0 1 ∧
    (∃ f0, ∀ fuel, f0 ≤ fuel →
      addChild fuel wgraphChain 1 0 = (wgraphChain, some GraphErr.cycleError) ∧
      ∀ xfuel root,
        xvec (addChild fuel wgraphChain 1 0).1 xfuel root
          = xvec wgraphChain xfuel root) := by
  have h : Relation.ReflTransGen (childEdge wgraphChain) 0 1 :=
    Relation.ReflTransGen.single (by simp [childEdge, wgraphChain])
  exact ⟨h, add_child_rejects_cycle wgraphChain 1 0 h⟩

/-- C8: a `SquaredFlux` node owns no DOFs (its `x0` is empty) and its only
registered dependency-graph child is the field; since the surface is not
registered (and not reachable through the field), mutating the surface's
parameters never invalidates the `SquaredFlux` node's cache, and the
surface appears nowhere in the closure id list from which the node's
flattened parameter vector and gradient are assembled. -/
theorem squared_flux_ignores_surface (g : OptGraph)
    (sfId surfaceId fieldId : Nat)
    (hdofs : g.dofs sfId = squaredFluxOwnDofs)
    (hch : g.children sfId = squaredFluxChildren fieldId)
    (hne : sfId ≠ surfaceId)
    (hfr : ¬ Relation.ReflTransGen (childEdge g) fieldId surfaceId)
    (hcache : cacheValid g sfId) :
    g.dofs sfId = [] ∧
    g.children sfId = [fieldId] ∧
    (∀ fuel, cacheValid (mutateDof fuel surfaceId g) sfId) ∧
    (∀ fuel, surfaceId ∉ closureIds g fuel sfId) := by
  have hnreach : ¬ Relation.ReflTransGen (childEdge g) sfId surfaceId := by
    intro h
    rcases Relation.ReflTransGen.cases_head h with h | ⟨c, hc, hrest⟩
    · exact hne h
    · have : c = fieldId := by
        have hmem : c ∈ g.children sfId := hc
        rw [hch] at hmem
        simpa [squaredFluxChildren] using hmem
      exact hfr (this ▸ hrest)
  refine ⟨hdofs, hch, fun fuel => ?_, fun fuel hmem => ?_⟩
  · have hrs : reachF g.children fuel sfId surfaceId = false := by
      rcases hb : reachF g.children fuel sfId surfaceId with _ | _
      · rfl
      · exact absurd (reachF_sound g.children fuel sfId surfaceId hb) hnreach
    have hgens : (mutateDof fuel surfaceId g).gens sfId = g.gens sfId := by
      simp [mutateDof, hrs]
    unfold cacheValid at hcache ⊢
    rcases hc : g.caches sfId with _ | ⟨v0, st⟩
    · rw [hc] at hcache; exact hcache.elim
    · have hcaches : (mutateDof fuel surfaceId g).caches sfId = g.caches sfId := rfl
      rw [hc] at hcache
      rw [hcaches, hc, hgens]
      exact hcache
  · exact hnreach (closureIds_sound g fuel sfId surfaceId hmem)

theorem squared_flux_ignores_surface_witness :
    wgraphFlux.dofs 2 = squaredFluxOwnDofs ∧
    wgraphFlux.children 2 = squaredFluxChildren 1 ∧
    (2 : Nat) ≠ 0 ∧
    ¬ Relation.ReflTransGen (childEdge wgraphFlux) 1 0 ∧
    cacheValid wgraphFlux 2 ∧
    (wgraphFlux.dofs 2 = [] ∧
     wgraphFlux.children 2 = [1] ∧
     (∀ fuel, cacheValid (mutateDof fuel 0 wgraphFlux) 2) ∧
     (∀ fuel, (0 : Nat) ∉ closureIds wgraphFlux fuel 2)) := by
  have hdofs : wgraphFlux.dofs 2 = squaredFluxOwnDofs := by
    simp [wgraphFlux, squaredFluxOwnDofs]
  have hch : wgraphFlux.children 2 = squaredFluxChildren 1 := by
    simp [wgraphFlux, squaredFluxChildren]
  have hne : (2 : Nat) ≠ 0 := by decide
  have hfr : ¬ Relation.ReflTransGen (childEdge wgraphFlux) 1 0 := by
    intro h
    rcases Relation.ReflTransGen.cases_head h with h | ⟨c, hc, _⟩
    · exact absurd h (by decide)
    · simp [childEdge, wgraphFlux] at hc
  have hcache : cacheValid wgraphFlux 2 := by simp [cacheValid, wgraphFlux]
  exact ⟨hdofs, hch, hne, hfr, hcache,
    squared_flux_ignores_surface wgraphFlux 2 0 1 hdofs hch hne hfr hcache⟩

/-- C6: for every node, the flattened free-parameter vector `x` and the
flattened free-name list have equal length, and fixing one additional
currently free DOF anywhere in the node's transitive closure (node `i`,
position `j`) reduces `len(x)` by exactly one. -/
theorem xvec_length_and_fix (g : OptGraph) (fuel a i j : Nat) (d : Dof)
    (hi : i ∈ closureIds g fuel a) (hget : (g.dofs i)[j]? = some d)
    (hfree : d.fixed = false) :
    (xvec g fuel a).length = (xnames g fuel a).length ∧
    (xvec (fixDof g i j) fuel a).length + 1 = (xvec g fuel a).length := by
  constructor
  · simp only [xvec, xnames, List.length_flatten, List.map_map]
    exact congrArg List.sum
      (List.map_congr_left fun b _ => freeVals_length_eq_freeNames (g.dofs b))
  · have hcl : closureIds (fixDof g i j) fuel a = closureIds g fuel a := rfl
    simp only [xvec, hcl, List.length_flatten, List.map_map]
    apply sum_map_pert (fun b => (freeVals (g.dofs b)).length)
      (fun b => (freeVals ((fixDof g i j).dofs b)).length) i
      (closureIds g fuel a) (nodup_dedupFO _ _) hi
    · have hdofs_i : (fixDof g i j).dofs i = fixAt (g.dofs i) j := by
        simp [fixDof]
      rw [hdofs_i]
      exact fixAt_free_length (g.dofs i) j d hget hfree
    · intro b _ hbne
      have : (fixDof g i j).dofs b = g.dofs b := by simp [fixDof, hbne]
      rw [this]

theorem xvec_length_and_fix_witness :
    (0 : Nat) ∈ closureIds wgraphDofs 1 0 ∧
    (wgraphDofs.dofs 0)[0]? = some ⟨"c0x", 3, false⟩ ∧
    (Dof.mk "c0x" 3 false).fixed = false ∧
    ((xvec wgraphDofs 1 0).length = (xnames wgraphDofs 1 0).length ∧
     (xvec (fixDof wgraphDofs 0 0) 1 0).length + 1
       = (xvec wgraphDofs 1 0).length) := by
  have hi : (0 : Nat) ∈ closureIds wgraphDofs 1 0 := by decide
  have hget : (wgraphDofs.dofs 0)[0]? = some ⟨"c0x", 3, false⟩ := by
    simp [wgraphDofs]
  have hfree : (Dof.mk "c0x" 3 false).fixed = false := rfl
  exact ⟨hi, hget, hfree,
    xvec_length_and_fix wgraphDofs 1 0 0 0 ⟨"c0x", 3, false⟩ hi hget hfree⟩

/-- C7: on a node all of whose DOFs (throughout its transitive closure)
are initially free, `fix_all()` followed by `unfix_all()` restores the
flattened vector `x` exactly: same length, same values, same order. -/
theorem fix_unfix_roundtrip (g : OptGraph) (fuel a : Nat)
    (hfree : ∀ i ∈ closureIds g fuel a, ∀ d ∈ g.dofs i, d.fixed = false) :
    xvec (unfixAllG (fixAllG g fuel a) fuel a) fuel a = xvec g fuel a := by
  have hcl2 : closureIds (unfixAllG (fixAllG g fuel a) fuel a) fuel a
      = closureIds g fuel a := rfl
  unfold xvec
  rw [hcl2]
  refine congrArg List.flatten (List.map_congr_left fun b hb => ?_)
  have h1 : (fixAllG g fuel a).dofs b
      = (g.dofs b).map (fun d => { d with fixed := true }) := by
    simp [fixAllG, setFixedAll, hb]
  have hb' : b ∈ closureIds (fixAllG g fuel a) fuel a := hb
  have hdofs : (unfixAllG (fixAllG g fuel a) fuel a).dofs b
      = ((g.dofs b).map (fun d => { d with fixed := true })).map
          (fun d => { d with fixed := false }) := by
    simp [unfixAllG, setFixedAll, hb', h1]
  rw [hdofs, List.map_map]
  have hcomp : ((fun d : Dof => { d with fixed := false })
      ∘ (fun d : Dof => { d with fixed := true }))
      = (fun d : Dof => { d with fixed := false }) := rfl
  rw [hcomp, freeVals_map_unfix, freeVals_all_free (g.dofs b) (hfree b hb)]

theorem fix_unfix_roundtrip_witness :
    (∀ i ∈ closureIds wgraphDofs 1 0, ∀ d ∈ wgraphDofs.dofs i,
      d.fixed = false) ∧
    xvec (unfixAllG (fixAllG wgraphDofs 1 0) 1 0) 1 0 = xvec wgraphDofs 1 0 := by
  have hfree : ∀ i ∈ closureIds wgraphDofs 1 0, ∀ d ∈ wgraphDofs.dofs i,
      d.fixed = false := by decide
  exact ⟨hfree, fix_unfix_roundtrip wgraphDofs 1 0 hfree⟩

/-- C9: when `alpha ≤ 0`, both `FOCUSObjective.J` and `FOCUSObjective.dJ`
omit the `Jcls` terms entirely (a strictly negative `alpha` does not
subtract them), and when `beta ≤ 0` or `Jdist` is absent both omit the
`Jdist` term; moreover `dJ` combines the operand partials with exactly the
same gated expression that `J` applies to the operand values, and for
every `alpha` and `beta` that gated expression's derivative is the same
gated expression applied to the operand derivatives — so the gradient
returned by `dJ()` is the derivative of exactly the expression `J()`
returns. -/
theorem focus_gates_consistent :
    (∀ (alpha beta : ℝ) (jf : ℝ) (jcls : List ℝ) (jd : Option ℝ),
      alpha ≤ 0 →
      focus_J alpha beta jf jcls jd = focus_J alpha beta jf [] jd) ∧
    (∀ (K : Type) (alpha beta : ℝ) (df : K → ℝ) (dcls : List (K → ℝ))
        (dd : Option (K → ℝ)), alpha ≤ 0 → ∀ k,
      focus_dJ alpha beta df dcls dd k = focus_dJ alpha beta df [] dd k) ∧
    (∀ (alpha beta : ℝ) (jf : ℝ) (jcls : List ℝ) (jd : Option ℝ),
      beta ≤ 0 ∨ jd = none →
      focus_J alpha beta jf jcls jd = focus_J alpha beta jf jcls none) ∧
    (∀ (K : Type) (alpha beta : ℝ) (df : K → ℝ) (dcls : List (K → ℝ))
        (dd : Option (K → ℝ)), beta ≤ 0 ∨ dd = none → ∀ k,
      focus_dJ alpha beta df dcls dd k = focus_dJ alpha beta df dcls none k) ∧
    (∀ (K : Type) (alpha beta : ℝ) (df : K → ℝ) (dcls : List (K → ℝ))
        (dd : Option (K → ℝ)) (k : K),
      focus_dJ alpha beta df dcls dd k
        = focus_J alpha beta (df k) (dcls.map (fun d => d k))
            (dd.map (fun d => d k))) ∧
    (∀ (alpha beta t : ℝ) (jf : ℝ → ℝ) (df : ℝ) (jcls : List (ℝ → ℝ))
        (dcl : List ℝ),
      HasDerivAt jf df t →
      List.Forall₂ (fun c c' => HasDerivAt c c' t) jcls dcl →
      HasDerivAt
        (fun s => focus_J alpha beta (jf s) (jcls.map (fun c => c s)) none)
        (focus_J alpha beta df dcl none) t) ∧
    (∀ (alpha beta t : ℝ) (jf : ℝ → ℝ) (df : ℝ) (jcls : List (ℝ → ℝ))
        (dcl : List ℝ) (jd : ℝ → ℝ) (ddv : ℝ),
      HasDerivAt jf df t →
      List.Forall₂ (fun c c' => HasDerivAt c c' t) jcls dcl →
      HasDerivAt jd ddv t →
      HasDerivAt
        (fun s => focus_J alpha beta (jf s) (jcls.map (fun c => c s))
          (some (jd s)))
        (focus_J alpha beta df dcl (some ddv)) t) := by
  refine ⟨?_, ?_, ?_, ?_, ?_, ?_, ?_⟩
  · intro alpha beta jf jcls jd ha
    rw [focus_J_eval, focus_J_eval]
    simp [not_lt.mpr ha]
  · intro K alpha beta df dcls dd ha k
    rw [focus_dJ_eval, focus_dJ_eval]
    simp [not_lt.mpr ha]
  · intro alpha beta jf jcls jd h
    rcases h with hb | rfl
    · rw [focus_J_eval, focus_J_eval]
      cases jd <;> simp [not_lt.mpr hb]
    · rfl
  · intro K alpha beta df dcls dd h k
    rcases h with hb | rfl
    · rw [focus_dJ_eval, focus_dJ_eval]
      cases dd <;> simp [not_lt.mpr hb]
    · rfl
  · intro K alpha beta df dcls dd k
    rw [focus_dJ_eval, focus_J_eval]
    cases dd <;> simp
  · intro alpha beta t jf df jcls dcl hjf hcl
    have hsum := hasDerivAt_list_sum t jcls dcl hcl
    by_cases hα : alpha > 0
    · have hfun : (fun s => focus_J alpha beta (jf s)
          (jcls.map (fun c => c s)) none)
          = fun s => jf s + alpha * ((jcls.map (fun c => c s)).sum) := by
        funext s; rw [focus_J_eval]; simp [hα]
      have hval : focus_J alpha beta df dcl none = df + alpha * dcl.sum := by
        rw [focus_J_eval]; simp [hα]
      rw [hfun, hval]
      exact hjf.add (hsum.const_mul alpha)
    · have hfun : (fun s => focus_J alpha beta (jf s)
          (jcls.map (fun c => c s)) none) = fun s => jf s := by
        funext s; rw [focus_J_eval]; simp [hα]
      have hval : focus_J alpha beta df dcl none = df := by
        rw [focus_J_eval]; simp [hα]
      rw [hfun, hval]
      exact hjf
  · intro alpha beta t jf df jcls dcl jd ddv hjf hcl hjd
    have hsum := hasDerivAt_list_sum t jcls dcl hcl
    by_cases hα : alpha > 0 <;> by_cases hβ : beta > 0
    · have hfun : (fun s => focus_J alpha beta (jf s)
          (jcls.map (fun c => c s)) (some (jd s)))
          = fun s => jf s + alpha * ((jcls.map (fun c => c s)).sum)
              + beta * jd s := by
        funext s; rw [focus_J_eval]; simp [hα, hβ]
      have hval : focus_J alpha beta df dcl (some ddv)
          = df + alpha * dcl.sum + beta * ddv := by
        rw [focus_J_eval]; simp [hα, hβ]
      rw [hfun, hval]
      exact (hjf.add (hsum.const_mul alpha)).add (hjd.const_mul beta)
    · have hfun : (fun s => focus_J alpha beta (jf s)
          (jcls.map (fun c => c s)) (some (jd s)))
          = fun s => jf s + alpha * ((jcls.map (fun c => c s)).sum) := by
        funext s; rw [focus_J_eval]; simp [hα, hβ]
      have hval : focus_J alpha beta df dcl (some ddv)
          = df + alpha * dcl.sum := by
        rw [focus_J_eval]; simp [hα, hβ]
      rw [hfun, hval]
      exact hjf.add (hsum.const_mul alpha)
    · have hfun : (fun s => focus_J alpha beta (jf s)
          (jcls.map (fun c => c s)) (some (jd s)))
          = fun s => jf s + beta * jd s := by
        funext s; rw [focus_J_eval]; simp [hα, hβ]
      have hval : focus_J alpha beta df dcl (some ddv) = df + beta * ddv := by
        rw [focus_J_eval]; simp [hα, hβ]
      rw [hfun, hval]
      exact hjf.add (hjd.const_mul beta)
    · have hfun : (fun s => focus_J alpha beta (jf s)
          (jcls.map (fun c => c s)) (some (jd s))) = fun s => jf s := by
        funext s; rw [focus_J_eval]; simp [hα, hβ]
      have hval : focus_J alpha beta df dcl (some ddv) = df := by
        rw [focus_J_eval]; simp [hα, hβ]
      rw [hfun, hval]
      exact hjf

theorem focus_gates_consistent_witness :
    focus_J (-1 : ℝ) 0 5 [7] none = focus_J (-1 : ℝ) 0 5 [] none ∧
    HasDerivAt
      (fun s : ℝ => focus_J (2 : ℝ) 3 ((fun u : ℝ => u) s)
        (([] : List (ℝ → ℝ)).map (fun c => c s)) (some ((fun u : ℝ => u) s)))
      (focus_J (2 : ℝ) 3 1 ([] : List ℝ) (some 1)) 0 := by
  constructor
  · exact focus_gates_consistent.1 (-1) 0 5 [7] none (by norm_num)
  · exact focus_gates_consistent.2.2.2.2.2.2 2 3 0 (fun u => u) 1 [] []
      (fun u => u) 1 (hasDerivAt_id 0) List.Forall₂.nil (hasDerivAt_id 0)

/-- C10: over exact real arithmetic, the seed `dJdB` that `SquaredFlux.dJ`
passes to `field.B_vjp` is the exact partial derivative of
`J = 0.5 * mean(B_n^2 * absn)` with respect to each field value component:
perturbing the single entry `B i0 c0` of the field values, the derivative
of `J` at the current point is `B_n * unitn * absn / absn.size` at
`(i0, c0)`, with `B_n = sum(B * unitn) - target` when a target is given
and `B_n = sum(B * unitn)` otherwise. -/
theorem squared_flux_dJdB_is_partial {m : Nat} (B nrm : Fin m → Fin 3 → ℝ)
    (tg : Option (Fin m → ℝ)) (i0 : Fin m) (c0 : Fin 3) :
    HasDerivAt (fun s => squaredFlux_J (updB B i0 c0 s) nrm tg)
      (squaredFlux_dJdB B nrm tg i0 c0) (B i0 c0) := by
  have hbn : HasDerivAt (fun s => surfBn (updB B i0 c0 s) nrm tg i0)
      (surfUnitn nrm i0 c0) (B i0 c0) := by
    have hfun : (fun s => surfBn (updB B i0 c0 s) nrm tg i0)
        = fun s => surfBn B nrm tg i0 + (s - B i0 c0) * surfUnitn nrm i0 c0 :=
      funext (fun s => surfBn_updB_eq B nrm tg i0 c0 s)
    rw [hfun]
    have h1 : HasDerivAt (fun s : ℝ => s - B i0 c0) 1 (B i0 c0) :=
      (hasDerivAt_id _).sub_const _
    have h2 :=
      (h1.mul_const (surfUnitn nrm i0 c0)).const_add (surfBn B nrm tg i0)
    simpa using h2
  have hterm : ∀ i : Fin m,
      HasDerivAt
        (fun s => surfBn (updB B i0 c0 s) nrm tg i ^ 2 * surfAbsn nrm i)
        (if i = i0 then
          2 * surfBn B nrm tg i0 * surfUnitn nrm i0 c0 * surfAbsn nrm i0
         else 0) (B i0 c0) := by
    intro i
    by_cases hi : i = i0
    · rw [hi, if_pos rfl]
      have h2 := (hbn.pow 2).mul_const (surfAbsn nrm i0)
      convert h2 using 1
      rw [updB_self B i0 c0]
      push_cast
      ring
    · have hconst :
          (fun s => surfBn (updB B i0 c0 s) nrm tg i ^ 2 * surfAbsn nrm i)
          = fun _ => surfBn B nrm tg i ^ 2 * surfAbsn nrm i := by
        funext s
        rw [surfBn_updB_ne B nrm tg i0 c0 s i hi]
      rw [hconst, if_neg hi]
      exact hasDerivAt_const _ _
  have hsum : HasDerivAt
      (fun s => ∑ i, surfBn (updB B i0 c0 s) nrm tg i ^ 2 * surfAbsn nrm i)
      (∑ i, if i = i0 then
        2 * surfBn B nrm tg i0 * surfUnitn nrm i0 c0 * surfAbsn nrm i0
       else 0)
      (B i0 c0) := HasDerivAt.sum (fun i _ => hterm i)
  have hJ := (hsum.div_const (m : ℝ)).const_mul (0.5 : ℝ)
  unfold squaredFlux_J squaredFlux_dJdB
  convert hJ using 1
  rw [Finset.sum_ite_eq' Finset.univ i0
    (fun _ => 2 * surfBn B nrm tg i0 * surfUnitn nrm i0 c0 * surfAbsn nrm i0)]
  simp
  ring

end Simsopt
